import Mathlib

/-!
Shallow embedding of the editing engine of the `med` text editor (Go).

The repository ships several historical variants of the same editor core.
The embedding follows the sources:

* `util.go`               — pure byte-span utilities (`textInsert`, `textDelete`,
                            `textSearch`, `lineStart`, `lineEnd`).
* `point.go`              — the `Point` cursor model.
* `unnamed/part_000` and the second half of `key-test/key-test.go`
                          — the point-based `File` variant with a working
                            undo/redo stack and the sam command interpreter
                            (`samAddress`, `samExecuteEdit`, `samExecuteX`, ...).
                            Embedded below in namespace `V0`.
* `sam/sam.go`            — the sam command-language scanner and parser.
                            Embedded below in namespace `sam`.
* `file.go` (first half)  — the dot-based `File` variant (undo integration is
                            still a TODO there).  Embedded in namespace `V1`.
* `med.go`                — the shell; only the address-resolution fragment of
                            `Med.samExecute` is needed and embedded.

Documents are flat byte sequences; a byte is a `Nat` (0..255 in practice) and
a text is a `List Nat`.  Go `int` values that can be negative (search results,
net edit offsets, address arguments) are embedded as `Int`; offsets that stay
non-negative on every reachable path are embedded as `Nat`.

Functions from the Go standard library (`unicode/utf8`, `unicode`, `bytes`,
`strings`, `strconv`, `regexp`) are external collaborators of this repository;
they are modelled here byte-for-byte where the claims depend on them
(`bytes.Index`, `bytes.LastIndex`, UTF-8 decoding) and on the ASCII fragment
where only their rough shape matters (character classes used as gates).
-/

/-- Bytes of a document.  Go `byte`. -/
abbrev Byte := Nat

/-- A document / byte string.  Go `[]byte`. -/
abbrev Text := List Byte

/-- Newline byte; `util.go` `var NL = []byte("\n")` (a single byte). -/
def NL : Byte := 10

/-- Model of `utf8.DecodeRune`: returns the first rune of the slice and its
byte width.  Empty input yields `(RuneError, 0)`; invalid encodings yield
`(RuneError, 1)`.  `RuneError` is U+FFFD. -/
def decodeRune (p : Text) : Nat × Nat :=
  match p with
  | [] => (0xFFFD, 0)
  | b0 :: rest =>
    if b0 < 0x80 then (b0, 1)
    else if b0 < 0xC2 then (0xFFFD, 1)
    else if b0 < 0xE0 then
      match rest with
      | b1 :: _ =>
        if 0x80 ≤ b1 ∧ b1 < 0xC0 then ((b0 - 0xC0) * 64 + (b1 - 0x80), 2)
        else (0xFFFD, 1)
      | [] => (0xFFFD, 1)
    else if b0 < 0xF0 then
      match rest with
      | b1 :: b2 :: _ =>
        if (if b0 = 0xE0 then 0xA0 ≤ b1 ∧ b1 < 0xC0
            else if b0 = 0xED then 0x80 ≤ b1 ∧ b1 < 0xA0
            else 0x80 ≤ b1 ∧ b1 < 0xC0) ∧ 0x80 ≤ b2 ∧ b2 < 0xC0 then
          ((b0 - 0xE0) * 4096 + (b1 - 0x80) * 64 + (b2 - 0x80), 3)
        else (0xFFFD, 1)
      | _ => (0xFFFD, 1)
    else if b0 < 0xF5 then
      match rest with
      | b1 :: b2 :: b3 :: _ =>
        if (if b0 = 0xF0 then 0x90 ≤ b1 ∧ b1 < 0xC0
            else if b0 = 0xF4 then 0x80 ≤ b1 ∧ b1 < 0x90
            else 0x80 ≤ b1 ∧ b1 < 0xC0) ∧
           0x80 ≤ b2 ∧ b2 < 0xC0 ∧ 0x80 ≤ b3 ∧ b3 < 0xC0 then
          ((b0 - 0xF0) * 262144 + (b1 - 0x80) * 4096 + (b2 - 0x80) * 64 + (b3 - 0x80), 4)
        else (0xFFFD, 1)
      | _ => (0xFFFD, 1)
    else (0xFFFD, 1)

/-- Model of `utf8.RuneStart`: a byte that is not a continuation byte. -/
def runeStart (b : Byte) : Bool :=
  ¬ (0x80 ≤ b ∧ b < 0xC0)

/-- Helper for `decodeLastRune`: scan back from index `start` down to `lim`
for a rune-start byte, like the loop in Go `utf8.DecodeLastRune`. -/
def findRuneStart (p : Text) (start lim : Nat) (fuel : Nat) : Nat :=
  match fuel with
  | 0 => lim
  | fuel + 1 =>
    if runeStart (p.getD start 0) then start
    else if start ≤ lim then lim
    else findRuneStart p (start - 1) lim fuel

/-- Model of `utf8.DecodeLastRune`. -/
def decodeLastRune (p : Text) : Nat × Nat :=
  match p.length with
  | 0 => (0xFFFD, 0)
  | e + 1 =>
    let r := p.getD e 0
    if r < 0x80 then (r, 1)
    else
      let lim := e + 1 - 4
      let start := if e = 0 then 0 else findRuneStart p (e - 1) lim 4
      let (r, size) := decodeRune (p.drop start)
      if start + size = e + 1 then (r, size) else (0xFFFD, 1)

theorem decodeRune_size_le (p : Text) : (decodeRune p).2 ≤ p.length := by
  match p with
  | [] => simp [decodeRune]
  | b0 :: rest =>
    simp only [decodeRune]
    repeat' split
    all_goals simp_all

theorem decodeRune_size_pos (p : Text) (h : p ≠ []) : 1 ≤ (decodeRune p).2 := by
  match p with
  | [] => exact absurd rfl h
  | b0 :: rest =>
    simp only [decodeRune]
    repeat' split
    all_goals simp

/-- First index at which `w` occurs in `t` (an occurrence is `w` being a
prefix of the corresponding suffix); model of `bytes.Index` restricted to its
success/failure behaviour, as an `Option`.  `bytesIndexAux t w i` searches in
`t` reporting positions shifted by `i`. -/
def bytesIndexAux (t w : Text) (i : Nat) : Option Nat :=
  match t with
  | [] => if w = [] then some i else none
  | _ :: rest =>
    if w.isPrefixOf t then some i else bytesIndexAux rest w (i + 1)

/-- Last index at which `w` occurs in `t`; model of `bytes.LastIndex`. -/
def bytesLastIndexAux (t w : Text) (i : Nat) : Option Nat :=
  match t with
  | [] => if w = [] then some i else none
  | _ :: rest =>
    match bytesLastIndexAux rest w (i + 1) with
    | some j => some j
    | none => if w.isPrefixOf t then some i else none

/-- Model of `bytes.Index` with Go result convention (-1 on failure). -/
def bytesIndex (t w : Text) : Int :=
  match bytesIndexAux t w 0 with
  | some i => (i : Int)
  | none => -1

/-- Model of `bytes.LastIndex` with Go result convention (-1 on failure). -/
def bytesLastIndex (t w : Text) : Int :=
  match bytesLastIndexAux t w 0 with
  | some i => (i : Int)
  | none => -1

/-- Go `bytes.Count(what, NL)` for the single-byte separator `NL`. -/
def countNL (what : Text) : Nat :=
  what.count NL

/-- Embeds `util.go` `lineEnd`. -/
def lineEnd (text : Text) (off : Nat) : Nat :=
  if off ≥ text.length then text.length
  else
    match bytesIndexAux (text.drop off) [NL] 0 with
    | none => text.length
    | some i => off + i

/-- Embeds `util.go` `lineStart`. -/
def lineStart (text : Text) (off : Nat) : Nat :=
  if off = 0 then 0
  else
    match bytesLastIndexAux (text.take off) [NL] 0 with
    | none => 0
    | some i => i + 1

/-- Embeds `util.go` `textSearch`. -/
def textSearch (text what : Text) (off : Nat) (forward : Bool) : Int :=
  if what = [] then -1
  else if forward then
    if off ≥ text.length then -1
    else
      match bytesIndexAux (text.drop off) what 0 with
      | some i => ((off + i : Nat) : Int)
      | none => -1
  else
    let off := min text.length (off + what.length)
    match bytesLastIndexAux (text.take off) what 0 with
    | some i => (i : Int)
    | none => -1

/-- Embeds `util.go` `textInsert`. -/
def textInsert (text : Text) (off : Nat) (what : Text) : Text :=
  text.take off ++ what ++ text.drop off

/-- Embeds `util.go` `textDelete`; returns the remaining text and the removed
slice, like the Go function. -/
def textDelete (text : Text) (off toOff : Nat) : Text × Text :=
  if toOff ≥ text.length then (text.take off, text.drop off)
  else (text.take off ++ text.drop toOff, (text.drop off).take (toOff - off))

theorem bytesIndexAux_some (t w : Text) (j i : Nat)
    (h : bytesIndexAux t w j = some i) :
    j ≤ i ∧ w.isPrefixOf (t.drop (i - j)) := by
  induction t generalizing j with
  | nil =>
    simp only [bytesIndexAux] at h
    split at h
    · cases h
      simp_all [List.isPrefixOf]
    · cases h
  | cons b rest ih =>
    simp only [bytesIndexAux] at h
    split at h
    · cases h
      simp_all
    · obtain ⟨hle, hp⟩ := ih (j + 1) h
      refine ⟨by omega, ?_⟩
      have : i - j = (i - (j + 1)) + 1 := by omega
      rw [this]
      simpa using hp

theorem bytesLastIndexAux_some (t w : Text) (j i : Nat)
    (h : bytesLastIndexAux t w j = some i) :
    j ≤ i ∧ w.isPrefixOf (t.drop (i - j)) := by
  induction t generalizing j with
  | nil =>
    simp only [bytesLastIndexAux] at h
    split at h
    · cases h
      simp_all [List.isPrefixOf]
    · cases h
  | cons b rest ih =>
    simp only [bytesLastIndexAux] at h
    split at h
    · rename_i j' hj
      cases h
      obtain ⟨hle, hp⟩ := ih (j + 1) hj
      refine ⟨by omega, ?_⟩
      have : i - j = (i - (j + 1)) + 1 := by omega
      rw [this]
      simpa using hp
    · split at h
      · cases h
        simp_all
      · cases h


theorem textDelete_slice_and_inverse (t : Text) (off toOff : Nat)
    (h1 : off ≤ toOff) (h2 : toOff ≤ t.length) :
    (textDelete t off toOff).2 = (t.drop off).take (toOff - off) ∧
    textInsert (textDelete t off toOff).1 off (textDelete t off toOff).2 = t := by
  unfold textDelete
  by_cases hge : toOff ≥ t.length
  · have hlen : toOff = t.length := le_antisymm h2 hge
    simp only [if_pos hge]
    have hnil : (t.take off).drop off = [] := by
      rw [List.drop_eq_nil_iff, List.length_take]
      omega
    constructor
    · rw [List.take_of_length_le (by rw [List.length_drop]; omega)]
    · unfold textInsert
      rw [List.take_take, min_self, hnil]
      simp [List.take_append_drop]
  · simp only [if_neg hge]
    refine ⟨trivial, ?_⟩
    unfold textInsert
    have hofflen : (t.take off).length = off := by simp; omega
    rw [List.take_append_eq_append_take, List.drop_append_eq_append_drop]
    rw [List.take_take, hofflen]
    have h0 : off - off = 0 := by omega
    rw [h0, min_self]
    simp only [List.take_zero, List.append_nil, List.drop_zero]
    have hdropnil : (t.take off).drop off = [] := by
      rw [List.drop_eq_nil_iff, hofflen]
    rw [hdropnil]
    simp only [List.nil_append]
    rw [show t.drop toOff = (t.drop off).drop (toOff - off) by
          rw [List.drop_drop]
          congr 1
          omega]
    rw [List.append_assoc, List.take_append_drop, List.take_append_drop]

theorem textDelete_textInsert (t w : Text) (off : Nat) (hoff : off ≤ t.length) :
    (textDelete (textInsert t off w) off (off + w.length)).1 = t := by
  unfold textInsert textDelete
  have hlen : (t.take off ++ w ++ t.drop off).length = t.length + w.length := by
    simp
    omega
  by_cases hcase : off + w.length ≥ (t.take off ++ w ++ t.drop off).length
  · rw [hlen] at hcase
    have hofflen : off = t.length := by omega
    simp only [if_pos (by rw [hlen]; omega : off + w.length ≥ (t.take off ++ w ++ t.drop off).length)]
    subst hofflen
    rw [List.take_of_length_le (le_refl _), List.drop_eq_nil_iff.mpr (le_refl _)]
    rw [List.append_nil, List.take_append_eq_append_take]
    rw [List.take_of_length_le (le_refl _), List.take_eq_nil_iff.mpr]
    · simp
    · simp
  · simp only [if_neg hcase]
    rw [hlen] at hcase
    have hlt : off < t.length := by omega
    have hglen : (t.take off ++ w).length = off + w.length := by
      simp
      omega
    rw [List.take_append_eq_append_take]
    rw [List.take_append_eq_append_take, List.take_take, min_self]
    rw [show off - (t.take off).length = 0 by rw [List.length_take]; omega]
    rw [List.take_zero, List.append_nil]
    rw [show off - (t.take off ++ w).length = 0 by rw [hglen]; omega]
    rw [List.take_zero, List.append_nil]
    rw [show off + w.length = (t.take off ++ w).length from hglen.symm, List.drop_left]
    exact List.take_append_drop off t


/-- C10: textDelete and textInsert are inverse at the utility level: for every
text and offsets 0 <= off <= to <= len(text), if textDelete(text, off, to)
returns the pair (rest, removed), then removed equals the original slice
text[off:to] and textInsert(rest, off, removed) equals the original text. -/
theorem C10_textDelete_textInsert_inverse (text : Text) (off toOff : Nat)
    (h1 : off ≤ toOff) (h2 : toOff ≤ text.length) :
    (textDelete text off toOff).2 = (text.drop off).take (toOff - off) ∧
    textInsert (textDelete text off toOff).1 off (textDelete text off toOff).2 = text :=
  textDelete_slice_and_inverse text off toOff h1 h2

/-- Witness for C10 at text [1,2,3,4], off 1, to 3. -/
theorem C10_witness :
    (textDelete [1, 2, 3, 4] 1 3).2 = (([1, 2, 3, 4] : Text).drop 1).take 2 ∧
    textInsert (textDelete [1, 2, 3, 4] 1 3).1 1 (textDelete [1, 2, 3, 4] 1 3).2
      = [1, 2, 3, 4] :=
  C10_textDelete_textInsert_inverse [1, 2, 3, 4] 1 3 (by decide) (by decide)

/-- C8: for every document, starting offset, and direction, substring search
with an empty (or nil) needle fails, and failure is reported by returning -1;
a successful search returns the offset of a genuine occurrence of the needle
(the needle is a prefix of the text at that offset). -/
theorem C8_textSearch_empty_fails_and_success_is_occurrence
    (text what : Text) (off : Nat) (forward : Bool) :
    (what = [] → textSearch text what off forward = -1) ∧
    (∀ i : Nat, textSearch text what off forward = (i : Int) →
       what ≠ [] ∧ what.isPrefixOf (text.drop i) = true) := by
  constructor
  · intro h
    simp [textSearch, h]
  · intro i h
    by_cases hw : what = []
    · simp [textSearch, hw] at h
    refine ⟨hw, ?_⟩
    unfold textSearch at h
    rw [if_neg hw] at h
    cases forward with
    | true =>
      rw [if_pos rfl] at h
      by_cases hoff : off ≥ text.length
      · rw [if_pos hoff] at h
        simp at h
      rw [if_neg hoff] at h
      cases hidx : bytesIndexAux (text.drop off) what 0 with
      | none =>
        rw [hidx] at h
        simp at h
      | some j =>
        rw [hidx] at h
        simp at h
        obtain ⟨-, hp⟩ := bytesIndexAux_some _ _ _ _ hidx
        rw [Nat.sub_zero] at hp
        have hd : (text.drop off).drop j = text.drop i := by
          rw [List.drop_drop]
          congr 1
          omega
        rw [hd] at hp
        exact hp
    | false =>
      rw [if_neg (by simp)] at h
      simp only [] at h
      cases hidx : bytesLastIndexAux (text.take (min text.length (off + what.length))) what 0 with
      | none =>
        rw [hidx] at h
        simp at h
      | some j =>
        rw [hidx] at h
        simp at h
        obtain ⟨-, hp⟩ := bytesLastIndexAux_some _ _ _ _ hidx
        rw [Nat.sub_zero, h] at hp
        rw [List.drop_take] at hp
        rw [List.isPrefixOf_iff_prefix] at hp ⊢
        exact hp.trans (List.take_prefix _ _)

/-- Witness for C8 at a concrete document, discharging the empty-needle
hypothesis and exhibiting a successful search. -/
theorem C8_witness :
    textSearch [97, 98, 99] [] 0 true = -1 ∧
    ([98] : Text) ≠ [] ∧ List.isPrefixOf [98] (([97, 98, 99] : Text).drop 1) = true :=
  ⟨(C8_textSearch_empty_fails_and_success_is_occurrence [97, 98, 99] [] 0 true).1 rfl,
   (C8_textSearch_empty_fails_and_success_is_occurrence [97, 98, 99] [98] 0 true).2 1 (by decide)⟩

/-- Embeds `point.go` `Point`: byte offset plus the derived visual-column and
line-number caches. -/
structure Point where
  off : Nat
  col : Nat
  line : Int
deriving DecidableEq

/-- Loop body of `Point.Column` (`point.go`): walk from the line start to the
point offset accumulating the visual column.  The Go loop advances at least
one byte per step, so `fuel` bounds its iteration count. -/
def columnAux (text : Text) (i stop col tabWidth fuel : Nat) : Nat :=
  match fuel with
  | 0 => col
  | fuel + 1 =>
    if i < stop then
      let s := (decodeRune (text.drop i)).2
      let col := if text.getD i 0 = 9 then col + (tabWidth - col % tabWidth) else col + 1
      if s = 0 then col else columnAux text (i + s) stop col tabWidth fuel
    else col

/-- Embeds `point.go` `Point.Column`. -/
def Point.Column (p : Point) (text : Text) (tabWidth : Nat) : Nat :=
  columnAux text (lineStart text p.off) p.off 0 tabWidth (p.off + 1)

/-- Embeds `point.go` `Point.Goto`: out-of-range targets are ignored; the line
cache is adjusted by the newlines crossed and the column recomputed. -/
def Point.Goto (p : Point) (text : Text) (off : Int) (tabStop : Nat) : Point :=
  if off < 0 ∨ off > (text.length : Int) then p
  else
    let o := off.toNat
    let line :=
      if o > p.off then p.line + (countNL ((text.take o).drop p.off) : Int)
      else p.line - (countNL ((text.take p.off).drop o) : Int)
    let p1 : Point := { p with off := o, line := line }
    { p1 with col := p1.Column text tabStop }

/-- Loop of `Point.GotoLine` (`point.go`): scan line ends from the document
start.  Each step advances the offset by at least one byte, so fuel
`text.length + 1` suffices. -/
def gotoLineAux (text : Text) (off line : Nat) (l : Int) (fuel : Nat) : Nat × Nat :=
  match fuel with
  | 0 => (off, line)
  | fuel + 1 =>
    if off < text.length ∧ l > 1 then
      gotoLineAux text (lineEnd text off + 1) (line + 1) (l - 1) fuel
    else (off, line)

/-- Embeds `point.go` `Point.GotoLine` (1-based line numbering). -/
def Point.GotoLine (p : Point) (text : Text) (l : Int) : Point :=
  let r := gotoLineAux text 0 0 l (text.length + 1)
  { p with off := r.1, col := 0, line := (r.2 : Int) }

/-- Embeds the `View` state as far as the claims need it: the window start
offset (`view.start`, adjusted by the mutation core on inserts/deletes) and
the visual tab stop (`view.visual.tabStop`, read by `samAddress`).  The
rendering-only fields of `part_001` `View` are omitted. -/
structure View where
  start : Nat
  visualTabStop : Nat
deriving DecidableEq

/-- Embeds `NewView(false)`: window start 0; `NewVisual` sets tab stop 8. -/
def NewView : View :=
  { start := 0, visualTabStop := 8 }

/-- Model of `unicode.IsPrint`: exact on ASCII (precisely the bytes
0x20..0x7E); non-ASCII runes are approximated as printable above U+00A0.
The claims below never depend on its value (they case-split on the gate). -/
def goIsPrint (r : Nat) : Bool :=
  (0x20 ≤ r ∧ r < 0x7F) ∨ 0xA0 < r

namespace V0

/-- Embeds the `Undo` record of `unnamed/part_000` / `key-test/key-test.go`:
offset of the change, copy of the changed text, and the insert/delete flag. -/
structure Undo where
  off : Nat
  text : Text
  isInsert : Bool
deriving DecidableEq

/-- Embeds the point-based `File` of `unnamed/part_000` /
`key-test/key-test.go`.  The `name`/`path` strings are omitted; `undos` is an
optional list because dialog mini-files carry a nil undo stack. -/
structure File where
  point : Point
  view : View
  undos : Option (List Undo)
  redos : List Undo
  mark : Point
  text : Text
  tabStop : Nat
  modified : Bool
deriving DecidableEq

/-- Embeds `NewFile` (the Go zero values give point/mark at the origin and
tab stop 0). -/
def NewFile (text : Text) : File :=
  { point := ⟨0, 0, 0⟩, view := NewView, undos := some [], redos := [],
    mark := ⟨0, 0, 0⟩, text := text, tabStop := 0, modified := false }

/-- Embeds `File.Goto`. -/
def File.Goto (file : File) (off : Int) : File :=
  { file with point := file.point.Goto file.text off file.tabStop }

/-- Embeds `File.pushUndo`: pushes a record copy and clears the redo stack;
a nil undo stack (dialog mini-file) disables tracking. -/
def File.pushUndo (file : File) (what : Text) (off : Nat) (isInsert : Bool) : File :=
  match file.undos with
  | none => file
  | some us =>
    { file with undos := some ({ off := off, text := what, isInsert := isInsert } :: us),
                redos := [] }

/-- Embeds the lowercase `File.insert`: splice at the point, shift the mark
and the view start, update caches.  Creates no undo record. -/
def File.insert (file : File) (what : Text) : File :=
  let text := textInsert file.text file.point.off what
  let l := what.length
  let nl := countNL what
  let mark :=
    if file.mark.off ≥ file.point.off then
      let m : Point := { file.mark with
        off := file.mark.off + l,
        line := file.mark.line + (nl : Int) }
      { m with col := m.Column text file.tabStop }
    else file.mark
  let view :=
    if file.point.off < file.view.start then
      { file.view with start := file.view.start + l }
    else file.view
  let point :=
    let p : Point := { file.point with
      off := file.point.off + l,
      line := file.point.line + (nl : Int) }
    { p with col := p.Column text file.tabStop }
  { file with text := text, mark := mark, view := view, point := point, modified := true }

/-- Embeds the capitalized `File.Insert`: converts a leading CR to LF, gates
on printable/newline/tab input, pushes the undo record, then splices.  The
second CR check in the source is dead after the first conversion. -/
def File.Insert (file : File) (what : Text) : File :=
  match what with
  | [] => file
  | b0 :: rest =>
    let what := if b0 = 13 then 10 :: rest else b0 :: rest
    let r := (decodeRune what).1
    if goIsPrint r ∨ what.headD 0 = 10 ∨ what.headD 0 = 9 then
      (file.pushUndo what file.point.off true).insert what
    else file

/-- Embeds the lowercase `File.delete`: move the point to the deletion start,
remove the range, translate the mark (collapse inside, shift after) and the
view start.  Creates no undo record; returns the removed bytes. -/
def File.delete (file : File) (start e : Nat) : File × Text :=
  let point := file.point.Goto file.text (start : Int) file.tabStop
  let td := textDelete file.text start e
  let text := td.1
  let what := td.2
  let mark :=
    if file.mark.off ≥ start ∧ file.mark.off ≤ e then point
    else if file.mark.off > e then
      let m : Point := { file.mark with
        off := file.mark.off - what.length,
        line := file.mark.line - (countNL what : Int) }
      { m with col := m.Column text file.tabStop }
    else file.mark
  let view :=
    if file.view.start ≥ start ∧ file.view.start < e then
      { file.view with start := start }
    else if file.view.start > e then
      { file.view with start := file.view.start - what.length }
    else file.view
  ({ file with point := point, text := text, mark := mark, view := view, modified := true },
   what)

/-- Embeds the capitalized `File.Delete`: clamp the range to the document,
delete, then push the undo record holding the removed bytes. -/
def File.Delete (file : File) (start e : Int) : File × Text :=
  let start := (max 0 start).toNat
  let e := (min (file.text.length : Int) e).toNat
  let r := file.delete start e
  (r.1.pushUndo r.2 start false, r.2)

/-- Embeds `File.Undo`: pop the top record, go to its offset, apply the
inverse operation (without recreating a record), push it onto redo. -/
def File.Undo (file : File) : File :=
  match file.undos with
  | some (u :: us) =>
    let f := { file with undos := some us }
    let f := f.Goto (u.off : Int)
    let f := if u.isInsert then (f.delete u.off (u.off + u.text.length)).1 else f.insert u.text
    { f with redos := u :: f.redos }
  | _ => file

end V0

theorem Point.Goto_off (p : Point) (text : Text) (s : Nat) (tabStop : Nat)
    (hs : s ≤ text.length) :
    (p.Goto text (s : Int) tabStop).off = s := by
  unfold Point.Goto
  rw [if_neg (by simp; omega)]
  simp

theorem textDelete_removed_length (t : Text) (s e : Nat)
    (hse : s ≤ e) (he : e ≤ t.length) :
    (textDelete t s e).2.length = e - s := by
  unfold textDelete
  by_cases hge : e ≥ t.length
  · rw [if_pos hge]
    simp
    omega
  · rw [if_neg hge]
    simp
    omega

/-- C3: for every document, mark at offset p, and edit: inserting k bytes at
offset i <= p (the insert splices at the point offset i) moves the mark to
p+k and inserting at i > p leaves it unchanged; deleting [s,e) with e <= p
moves the mark to p-(e-s), and deleting with s <= p <= e collapses the mark
to s. -/
theorem C3_mark_position_translation (file : V0.File) (what : Text) (s e : Nat)
    (hse : s ≤ e) (he : e ≤ file.text.length) :
    (file.point.off ≤ file.mark.off →
       (file.insert what).mark.off = file.mark.off + what.length) ∧
    (file.mark.off < file.point.off →
       (file.insert what).mark.off = file.mark.off) ∧
    (e ≤ file.mark.off →
       ((file.delete s e).1.mark.off = file.mark.off - (e - s))) ∧
    (s ≤ file.mark.off ∧ file.mark.off ≤ e →
       ((file.delete s e).1.mark.off = s)) := by
  refine ⟨?_, ?_, ?_, ?_⟩
  · intro h
    unfold V0.File.insert
    simp only
    rw [if_pos (by omega)]
  · intro h
    unfold V0.File.insert
    simp only
    rw [if_neg (by omega)]
  · intro h
    unfold V0.File.delete
    simp only
    by_cases heq : file.mark.off ≤ e
    · have hpe : file.mark.off = e := by omega
      rw [if_pos ⟨by omega, heq⟩]
      rw [Point.Goto_off file.point file.text s file.tabStop (by omega)]
      omega
    · rw [if_neg (by omega), if_pos (by omega)]
      rw [textDelete_removed_length file.text s e hse he]
  · intro ⟨h1, h2⟩
    unfold V0.File.delete
    simp only
    rw [if_pos ⟨h1, h2⟩]
    exact Point.Goto_off file.point file.text s file.tabStop (by omega)

/-- Witness for C3 on a concrete file: mark at 2, point at 1, inserting 2
bytes moves the mark to 4; deleting [0,2) collapses the mark to 0. -/
theorem C3_witness :
    (let f : V0.File :=
       { V0.NewFile [97, 98, 99] with mark := ⟨2, 0, 0⟩, point := ⟨1, 0, 0⟩ }
     (f.insert [120, 121]).mark.off = 4 ∧ (f.delete 0 2).1.mark.off = 0) := by
  refine ⟨?_, ?_⟩
  · exact (C3_mark_position_translation _ [120, 121] 0 2 (by decide) (by decide)).1 (by decide)
  · exact (C3_mark_position_translation _ [120, 121] 0 2 (by decide) (by decide)).2.2.2
      (by decide)

theorem textInsert_length (t w : Text) (off : Nat) (h : off ≤ t.length) :
    (textInsert t off w).length = t.length + w.length := by
  unfold textInsert
  simp
  omega

theorem textDelete_length (t : Text) (s e : Nat) (hse : s ≤ e) (he : e ≤ t.length) :
    (textDelete t s e).1.length = t.length - (e - s) := by
  unfold textDelete
  by_cases hge : e ≥ t.length
  · rw [if_pos hge]
    simp
    omega
  · rw [if_neg hge]
    simp
    omega

/-- Leading-CR conversion performed by `File.Insert` before it gates and
records the payload. -/
def convCR : Text → Text
  | [] => []
  | b :: r => if b = 13 then 10 :: r else b :: r

/-- Decides whether `File.Insert` actually performs the edit (nonempty input
passing the printable/newline/tab gate). -/
def insertEffective (w : Text) : Bool :=
  match w with
  | [] => false
  | b0 :: rest =>
    let w2 := if b0 = 13 then 10 :: rest else b0 :: rest
    goIsPrint (decodeRune w2).1 || w2.headD 0 = 10 || w2.headD 0 = 9

theorem File.Insert_effective (f : V0.File) (w : Text) (us : List V0.Undo)
    (hund : f.undos = some us) (he : insertEffective w = true) :
    (f.Insert w).text = textInsert f.text f.point.off (convCR w) ∧
    (f.Insert w).undos = some (⟨f.point.off, convCR w, true⟩ :: us) ∧
    (f.Insert w).point.off = f.point.off + (convCR w).length := by
  match w with
  | [] => simp [insertEffective] at he
  | b0 :: rest =>
    have hpush : f.pushUndo (if b0 = 13 then 10 :: rest else b0 :: rest) f.point.off true
        = { f with
            undos := some (⟨f.point.off, if b0 = 13 then 10 :: rest else b0 :: rest, true⟩ :: us),
            redos := [] } := by
      unfold V0.File.pushUndo
      rw [hund]
    unfold V0.File.Insert
    simp only [convCR]
    rw [if_pos ?hgate, hpush]
    case hgate =>
      simp only [insertEffective, Bool.or_eq_true, decide_eq_true_eq] at he
      rcases he with (h | h) | h
      · exact Or.inl h
      · exact Or.inr (Or.inl h)
      · exact Or.inr (Or.inr h)
    exact ⟨rfl, rfl, rfl⟩

theorem File.Insert_ineffective (f : V0.File) (w : Text)
    (he : insertEffective w = false) : f.Insert w = f := by
  match w with
  | [] => rfl
  | b0 :: rest =>
    unfold V0.File.Insert
    simp only
    rw [if_neg ?hgate]
    case hgate =>
      intro hcon
      have htrue : insertEffective (b0 :: rest) = true := by
        simp only [insertEffective, Bool.or_eq_true, decide_eq_true_eq]
        tauto
      rw [htrue] at he
      cases he

theorem File.delete_facts (f : V0.File) (s e : Nat) :
    (f.delete s e).1.text = (textDelete f.text s e).1 ∧
    (f.delete s e).1.undos = f.undos ∧
    (f.delete s e).1.redos = f.redos ∧
    (f.delete s e).1.point = f.point.Goto f.text (s : Int) f.tabStop ∧
    (f.delete s e).2 = (textDelete f.text s e).2 := by
  unfold V0.File.delete
  refine ⟨rfl, rfl, rfl, rfl, rfl⟩

theorem File.insert_facts (f : V0.File) (w : Text) :
    (f.insert w).text = textInsert f.text f.point.off w ∧
    (f.insert w).undos = f.undos ∧
    (f.insert w).redos = f.redos ∧
    (f.insert w).point.off = f.point.off + w.length := by
  unfold V0.File.insert
  exact ⟨rfl, rfl, rfl, rfl⟩

theorem Undo_insert_record (f : V0.File) (u : V0.Undo) (us : List V0.Undo)
    (hund : f.undos = some (u :: us)) (hins : u.isInsert = true)
    (hok : u.off + u.text.length ≤ f.text.length) :
    (V0.File.Undo f).text = (textDelete f.text u.off (u.off + u.text.length)).1 ∧
    (V0.File.Undo f).undos = some us ∧
    (V0.File.Undo f).point.off = u.off := by
  have hstep : V0.File.Undo f =
      (let f2 := ({ f with undos := some us } : V0.File).Goto (u.off : Int)
       let f3 := if u.isInsert then (f2.delete u.off (u.off + u.text.length)).1
                 else f2.insert u.text
       { f3 with redos := u :: f3.redos }) := by
    unfold V0.File.Undo
    rw [hund]
  rw [hstep, hins]
  simp only [if_true]
  refine ⟨rfl, rfl, ?_⟩
  show ((f.point.Goto f.text (u.off : Int) f.tabStop).Goto f.text (u.off : Int) f.tabStop).off
      = u.off
  exact Point.Goto_off _ _ _ _ (by omega)

theorem Undo_delete_record (f : V0.File) (u : V0.Undo) (us : List V0.Undo)
    (hund : f.undos = some (u :: us)) (hdel : u.isInsert = false)
    (hok : u.off ≤ f.text.length) :
    (V0.File.Undo f).text = textInsert f.text u.off u.text ∧
    (V0.File.Undo f).undos = some us ∧
    (V0.File.Undo f).point.off = u.off + u.text.length := by
  have hstep : V0.File.Undo f =
      (let f2 := ({ f with undos := some us } : V0.File).Goto (u.off : Int)
       let f3 := if u.isInsert then (f2.delete u.off (u.off + u.text.length)).1
                 else f2.insert u.text
       { f3 with redos := u :: f3.redos }) := by
    unfold V0.File.Undo
    rw [hund]
  rw [hstep, hdel]
  simp only [Bool.false_eq_true, if_false]
  have hgoto : (f.point.Goto f.text (u.off : Int) f.tabStop).off = u.off :=
    Point.Goto_off _ _ _ _ (by omega)
  refine ⟨?_, rfl, ?_⟩
  · show textInsert f.text (f.point.Goto f.text (u.off : Int) f.tabStop).off u.text
        = textInsert f.text u.off u.text
    rw [hgoto]
  · show (f.point.Goto f.text (u.off : Int) f.tabStop).off + u.text.length
        = u.off + u.text.length
    rw [hgoto]

theorem File.pushUndo_some (f : V0.File) (w : Text) (o : Nat) (b : Bool)
    (us : List V0.Undo) (hund : f.undos = some us) :
    f.pushUndo w o b = { f with undos := some (⟨o, w, b⟩ :: us), redos := [] } := by
  unfold V0.File.pushUndo
  rw [hund]

/-- Edit operations of claim C1: the exposed Insert/Delete mutation calls of
the `V0` file variant. -/
inductive Edit where
  | ins (what : Text)
  | del (start e : Int)
deriving DecidableEq

/-- Applies one exposed edit operation. -/
def applyEdit (file : V0.File) : Edit → V0.File
  | .ins w => file.Insert w
  | .del s e => (file.Delete s e).1

/-- Applies a sequence of exposed edit operations. -/
def applyEdits (file : V0.File) (es : List Edit) : V0.File :=
  es.foldl applyEdit file

/-- Number of records on the undo stack. -/
def numUndos (file : V0.File) : Nat :=
  (file.undos.getD []).length

/-- Calls `undo()` repeatedly until the undo stack is empty (each call pops
exactly one record, so iterating the stack depth empties it). -/
def undoAll (file : V0.File) : V0.File :=
  Nat.iterate V0.File.Undo (numUndos file) file

/-- A delete edit is valid when, after the clamping performed by
`File.Delete`, the range start does not exceed the range end (the Go code
would panic on `text[off:to]` with `off > to`). -/
def editOK (file : V0.File) : Edit → Bool
  | .ins _ => true
  | .del s e => (max 0 s).toNat ≤ (min (file.text.length : Int) e).toNat

/-- Validity of an edit sequence, threaded through the state evolution. -/
def editsOK (file : V0.File) : List Edit → Bool
  | [] => true
  | e :: es => editOK file e && editsOK (applyEdit file e) es

/-- Pure inversion of one undo record as performed by `File.Undo`. -/
def invertRec (t : Text) (u : V0.Undo) : Text :=
  if u.isInsert then (textDelete t u.off (u.off + u.text.length)).1
  else textInsert t u.off u.text

/-- Well-formedness of one undo record against the current text. -/
def recOK (t : Text) (u : V0.Undo) : Prop :=
  if u.isInsert then u.off + u.text.length ≤ t.length else u.off ≤ t.length

/-- The undo stack, inverted record by record, rewinds the text to `t0`. -/
def Chain : Text → List V0.Undo → Text → Prop
  | t, [], t0 => t = t0
  | t, u :: us, t0 => recOK t u ∧ Chain (invertRec t u) us t0

/-- Invariant carried across edits: the point is in bounds and the undo stack
rewinds the current text to the original document `t0`. -/
def UndoInv (f : V0.File) (t0 : Text) : Prop :=
  f.point.off ≤ f.text.length ∧ ∃ us, f.undos = some us ∧ Chain f.text us t0

theorem undoIter_restores :
    ∀ (us : List V0.Undo) (f : V0.File) (t0 : Text),
      f.undos = some us → Chain f.text us t0 →
      (Nat.iterate V0.File.Undo us.length f).text = t0 := by
  intro us
  induction us with
  | nil =>
    intro f t0 _ hchain
    exact hchain
  | cons u us ih =>
    intro f t0 hund hchain
    obtain ⟨hok, hchain⟩ := hchain
    show (Nat.iterate V0.File.Undo us.length (V0.File.Undo f)).text = t0
    cases hins : u.isInsert with
    | true =>
      have hok2 : u.off + u.text.length ≤ f.text.length := by
        unfold recOK at hok
        rwa [hins, if_pos rfl] at hok
      obtain ⟨hA, hB, -⟩ := Undo_insert_record f u us hund hins hok2
      apply ih (V0.File.Undo f) t0 hB
      rw [hA]
      unfold invertRec at hchain
      rwa [hins, if_pos rfl] at hchain
    | false =>
      have hok2 : u.off ≤ f.text.length := by
        unfold recOK at hok
        rwa [hins, if_neg (by simp)] at hok
      obtain ⟨hA, hB, -⟩ := Undo_delete_record f u us hund hins hok2
      apply ih (V0.File.Undo f) t0 hB
      rw [hA]
      unfold invertRec at hchain
      rwa [hins, if_neg (by simp)] at hchain

theorem insert_preserves_UndoInv (f : V0.File) (t0 : Text) (w : Text)
    (hInv : UndoInv f t0) : UndoInv (f.Insert w) t0 := by
  obtain ⟨hpt, us, hund, hchain⟩ := hInv
  cases heff : insertEffective w with
  | false =>
    rw [File.Insert_ineffective f w heff]
    exact ⟨hpt, us, hund, hchain⟩
  | true =>
    obtain ⟨ht, hu, hp⟩ := File.Insert_effective f w us hund heff
    have hlen : (f.Insert w).text.length = f.text.length + (convCR w).length := by
      rw [ht]
      exact textInsert_length _ _ _ hpt
    refine ⟨?_, ⟨f.point.off, convCR w, true⟩ :: us, hu, ?_, ?_⟩
    · rw [hp, hlen]
      omega
    · unfold recOK
      rw [if_pos rfl]
      simp only [ht]
      rw [textInsert_length _ _ _ hpt]
      omega
    · unfold invertRec
      rw [if_pos rfl]
      simp only [ht]
      rw [textDelete_textInsert f.text (convCR w) f.point.off hpt]
      exact hchain

theorem delete_preserves_UndoInv (f : V0.File) (t0 : Text) (s e : Int)
    (hok : editOK f (.del s e) = true) (hInv : UndoInv f t0) :
    UndoInv ((f.Delete s e).1) t0 := by
  obtain ⟨hpt, us, hund, hchain⟩ := hInv
  unfold editOK at hok
  simp only [decide_eq_true_eq] at hok
  set sN := (max 0 s).toNat with hsN
  set eN := (min (f.text.length : Int) e).toNat with heN
  have heLe : eN ≤ f.text.length := by omega
  have hsLe : sN ≤ eN := hok
  obtain ⟨hdT, hdU, hdR, hdP, hdW⟩ := File.delete_facts f sN eN
  have hDel : (f.Delete s e).1 = ((f.delete sN eN).1).pushUndo (f.delete sN eN).2 sN false := rfl
  have hpush := File.pushUndo_some ((f.delete sN eN).1) ((f.delete sN eN).2) sN false us
      (by rw [hdU, hund])
  rw [hDel, hpush]
  have hlen : (f.delete sN eN).1.text.length = f.text.length - (eN - sN) := by
    rw [hdT]
    exact textDelete_length f.text sN eN hsLe heLe
  refine ⟨?_, ⟨sN, (f.delete sN eN).2, false⟩ :: us, rfl, ?_, ?_⟩
  · show (f.delete sN eN).1.point.off ≤ (f.delete sN eN).1.text.length
    rw [hdP, hlen, Point.Goto_off _ _ _ _ (by omega)]
    omega
  · unfold recOK
    rw [if_neg (by simp)]
    show sN ≤ (f.delete sN eN).1.text.length
    rw [hlen]
    omega
  · unfold invertRec
    rw [if_neg (by simp)]
    show Chain (textInsert (f.delete sN eN).1.text sN (f.delete sN eN).2) us t0
    rw [hdT, hdW]
    rw [(textDelete_slice_and_inverse f.text sN eN hsLe heLe).2]
    exact hchain

theorem edits_preserve_UndoInv :
    ∀ (es : List Edit) (f : V0.File) (t0 : Text),
      UndoInv f t0 → editsOK f es = true → UndoInv (applyEdits f es) t0 := by
  intro es
  induction es with
  | nil =>
    intro f t0 hInv _
    exact hInv
  | cons e es ih =>
    intro f t0 hInv hok
    unfold editsOK at hok
    rw [Bool.and_eq_true] at hok
    show UndoInv (applyEdits (applyEdit f e) es) t0
    apply ih _ _ _ hok.2
    cases e with
    | ins w => exact insert_preserves_UndoInv f t0 w hInv
    | del s e2 => exact delete_preserves_UndoInv f t0 s e2 hok.1 hInv

/-- C1 (amended): for every initial document and every valid sequence of
Insert/Delete edit operations applied to it, calling undo() repeatedly until
the undo stack is empty restores the document to the byte-for-byte original.
The original point position is not restored in general (each undo leaves the
point at the boundary of the change it reverted); see the counterexample. -/
theorem C1_undo_restores_document (f : V0.File) (es : List Edit)
    (h0 : f.undos = some []) (hpt : f.point.off ≤ f.text.length)
    (hok : editsOK f es = true) :
    (undoAll (applyEdits f es)).text = f.text := by
  have hInv : UndoInv f f.text := ⟨hpt, [], h0, rfl⟩
  obtain ⟨hpt2, us, hund, hchain⟩ := edits_preserve_UndoInv es f f.text hInv hok
  have hres := undoIter_restores us (applyEdits f es) f.text hund hchain
  unfold undoAll numUndos
  rw [hund]
  simpa using hres

/-- Witness for C1: a concrete file, an insert followed by a delete, and the
restored document. -/
theorem C1_witness :
    editsOK (V0.NewFile [97, 98]) [Edit.ins [120], Edit.del 0 1] = true ∧
    (undoAll (applyEdits (V0.NewFile [97, 98]) [Edit.ins [120], Edit.del 0 1])).text
      = (V0.NewFile [97, 98]).text :=
  ⟨by decide,
   C1_undo_restores_document (V0.NewFile [97, 98]) [Edit.ins [120], Edit.del 0 1]
     rfl (by decide) (by decide)⟩

/-- Counterexample to C1 as stated: deleting one byte of "ab" with the point
at offset 0 and undoing empties the undo stack and restores the text, but the
point ends at offset 1, not at its original offset 0 (the undo of a delete
leaves the point behind the re-inserted bytes). -/
theorem C1_counterexample :
    (undoAll (applyEdits (V0.NewFile [97, 98]) [Edit.del 0 1])).text
      = (V0.NewFile [97, 98]).text ∧
    numUndos (undoAll (applyEdits (V0.NewFile [97, 98]) [Edit.del 0 1])) = 0 ∧
    (V0.NewFile [97, 98]).point.off = 0 ∧
    (undoAll (applyEdits (V0.NewFile [97, 98]) [Edit.del 0 1])).point.off = 1 := by
  refine ⟨by decide, by decide, by decide, by decide⟩

/-- C2 (amended): `undo()` reverts exactly one edit record per call — the
undo record carries no sequence id and there is no undo-block boundary in the
code — so after two effective inserts a single undo() leaves the first edit
applied and a second undo() is always required to restore the original
document. -/
theorem C2_each_undo_pops_one_record (f : V0.File) (w1 w2 : Text)
    (h0 : f.undos = some []) (hpt : f.point.off ≤ f.text.length)
    (he1 : insertEffective w1 = true) (he2 : insertEffective w2 = true) :
    (V0.File.Undo ((f.Insert w1).Insert w2)).text = (f.Insert w1).text ∧
    (V0.File.Undo (V0.File.Undo ((f.Insert w1).Insert w2))).text = f.text := by
  obtain ⟨ht1, hu1, hp1⟩ := File.Insert_effective f w1 [] h0 he1
  have hlen1 : (f.Insert w1).text.length = f.text.length + (convCR w1).length := by
    rw [ht1]
    exact textInsert_length _ _ _ hpt
  have hpt1 : (f.Insert w1).point.off ≤ (f.Insert w1).text.length := by
    rw [hp1, hlen1]
    omega
  obtain ⟨ht2, hu2, hp2⟩ := File.Insert_effective (f.Insert w1) w2 _ hu1 he2
  have hlen2 : ((f.Insert w1).Insert w2).text.length
      = (f.Insert w1).text.length + (convCR w2).length := by
    rw [ht2]
    exact textInsert_length _ _ _ hpt1
  have hok2 : (f.Insert w1).point.off + (convCR w2).length
      ≤ ((f.Insert w1).Insert w2).text.length := by
    rw [hlen2]
    omega
  obtain ⟨hA1, hB1, -⟩ := Undo_insert_record ((f.Insert w1).Insert w2)
    ⟨(f.Insert w1).point.off, convCR w2, true⟩ _ hu2 rfl hok2
  have hback1 : (V0.File.Undo ((f.Insert w1).Insert w2)).text = (f.Insert w1).text := by
    rw [hA1, ht2]
    exact textDelete_textInsert _ _ _ hpt1
  refine ⟨hback1, ?_⟩
  have hok1 : (⟨f.point.off, convCR w1, true⟩ : V0.Undo).off + (convCR w1).length
      ≤ (V0.File.Undo ((f.Insert w1).Insert w2)).text.length := by
    rw [hback1, hlen1]
    simp only
    omega
  obtain ⟨hA2, hB2, -⟩ := Undo_insert_record (V0.File.Undo ((f.Insert w1).Insert w2))
    ⟨f.point.off, convCR w1, true⟩ [] hB1 rfl hok1
  rw [hA2, hback1, ht1]
  exact textDelete_textInsert _ _ _ hpt

/-- Witness for C2 on the empty file with two one-byte inserts. -/
theorem C2_witness :
    (V0.File.Undo ((V0.NewFile []).Insert [97] |>.Insert [98])).text
      = ((V0.NewFile []).Insert [97]).text ∧
    (V0.File.Undo (V0.File.Undo ((V0.NewFile []).Insert [97] |>.Insert [98]))).text
      = (V0.NewFile []).text :=
  C2_each_undo_pops_one_record (V0.NewFile []) [97] [98] rfl (by decide)
    (by decide) (by decide)

/-- Counterexample to C2 as stated: on the empty document, after inserting
"a" and then "b" with no block boundary between them, a single undo() call
does not remove the effect of both edits — the text is still "a", one record
remains on the undo stack, and a second undo() is required to reach the
original empty document. -/
theorem C2_counterexample :
    (V0.File.Undo ((V0.NewFile []).Insert [97] |>.Insert [98])).text = [97] ∧
    ([97] : Text) ≠ [] ∧
    numUndos (V0.File.Undo ((V0.NewFile []).Insert [97] |>.Insert [98])) = 1 ∧
    (V0.File.Undo (V0.File.Undo ((V0.NewFile []).Insert [97] |>.Insert [98]))).text = [] := by
  refine ⟨by decide, by decide, by decide, by decide⟩

/-- Model of `unicode.IsSpace` on the Latin-1 range (the scanner input is
command-line text; beyond Latin-1 only exotic Unicode spaces differ). -/
def goIsSpace (r : Int) : Bool :=
  r = 9 ∨ r = 10 ∨ r = 11 ∨ r = 12 ∨ r = 13 ∨ r = 32 ∨ r = 0x85 ∨ r = 0xA0

/-- Model of `unicode.IsDigit` on ASCII. -/
def goIsDigit (r : Int) : Bool :=
  48 ≤ r ∧ r ≤ 57

namespace sam

/-- Embeds `sam.go` `Scanner`: source, offset of the current rune, read
offset, and the current rune (`-1` past the end). -/
structure Scanner where
  src : Text
  offset : Nat
  rdOffset : Nat
  ch : Int
deriving DecidableEq

/-- Embeds `Scanner.next`. -/
def Scanner.next (s : Scanner) : Scanner :=
  if s.rdOffset < s.src.length then
    let d := decodeRune (s.src.drop s.rdOffset)
    { s with offset := s.rdOffset, rdOffset := s.rdOffset + d.2, ch := (d.1 : Int) }
  else
    { s with offset := s.src.length, ch := -1 }

/-- Embeds `Scanner.Init` (which primes the scanner with one `next`). -/
def Scanner.Init (src : Text) : Scanner :=
  Scanner.next { src := src, offset := 0, rdOffset := 0, ch := 0 }

/-- Loop of `Scanner.skipWhitespace`; each step advances the read offset or
reaches EOF, so fuel `src.length + 2` suffices. -/
def skipWhitespaceF : Nat → Scanner → Scanner
  | 0, s => s
  | fuel + 1, s => if goIsSpace s.ch then skipWhitespaceF fuel s.next else s

/-- Embeds `Scanner.skipWhitespace`. -/
def Scanner.skipWhitespace (s : Scanner) : Scanner :=
  skipWhitespaceF (s.src.length + 2) s

/-- Digit loop of `Scanner.scanAddress`. -/
def scanAddressDigits : Nat → Scanner → Scanner
  | 0, s => s
  | fuel + 1, s =>
    if s.ch ≥ 0 ∧ goIsDigit s.ch then scanAddressDigits fuel s.next else s

/-- Embeds `Scanner.scanAddress`. -/
def Scanner.scanAddress (s : Scanner) : Scanner × Text :=
  let start := s.offset
  if s.ch ≥ 0 then
    if s.ch = 36 ∨ s.ch = 46 then (s.next, [s.ch.toNat])
    else
      let s1 := if s.ch = 35 then s.next else s
      let s2 := scanAddressDigits (s1.src.length + 2) s1
      (s2, (s2.src.drop start).take (s2.offset - start))
  else (s, (s.src.drop start).take (s.offset - start))

/-- Loop of `Scanner.scanText`: consume runes until an unescaped `/` or the
end of input; `esc` mirrors the backslash-escape flag (note the Go switch
leaves `esc` unchanged on an escaped slash). -/
def scanTextF : Nat → Scanner → Bool → Scanner
  | 0, s, _ => s
  | fuel + 1, s, esc =>
    if s.ch ≥ 0 then
      let s1 := s.next
      if s1.ch = 47 ∧ ¬esc then s1.next
      else
        let esc1 := if s1.ch = 47 then esc else if s1.ch = 92 then !esc else false
        scanTextF fuel s1 esc1
    else s

/-- Embeds `Scanner.scanText`: the literal runs from the opening slash to the
scanner position after the loop (including a consumed closing slash). -/
def Scanner.scanText (s : Scanner) : Scanner × Text :=
  let start := s.offset
  let s2 := scanTextF (s.src.length + 2) s false
  (s2, (s2.src.drop start).take (s2.offset - start))

/-- Embeds the `Token` enumeration of `sam.go`. -/
inductive Token where
  | ADDRESS
  | COMMA
  | COMMAND
  | TEXT
  | EOF
  | UNKNOWN
deriving DecidableEq

/-- Embeds `Scanner.Scan`: skip whitespace, then dispatch on the current
rune.  Returns the advanced scanner, token position, token, and literal. -/
def Scanner.Scan (s : Scanner) : Scanner × Nat × Token × Text :=
  let s := s.skipWhitespace
  let pos := s.offset
  if s.ch = 35 ∨ s.ch = 46 ∨ s.ch = 36 ∨ (48 ≤ s.ch ∧ s.ch ≤ 57) then
    let r := s.scanAddress
    (r.1, pos, Token.ADDRESS, r.2)
  else if s.ch = 44 then
    (s.next, pos, Token.COMMA, [44])
  else if s.ch = 97 ∨ s.ch = 105 ∨ s.ch = 99 ∨ s.ch = 100 ∨ s.ch = 120 ∨
          s.ch = 103 ∨ s.ch = 118 then
    (s.next, pos, Token.COMMAND, [s.ch.toNat])
  else if s.ch = 47 then
    let r := s.scanText
    (r.1, pos, Token.TEXT, r.2)
  else if s.ch = -1 then
    (s, pos, Token.EOF, [])
  else
    (s.next, pos, Token.UNKNOWN, [s.ch.toNat])

/-- Embeds the `Address` node: type rune, argument, optional right side of a
comma pair.  (`Type` and `End` are Lean keywords or clash; the projections
below keep the source meaning.) -/
inductive Address where
  | mk (typ : Nat) (Arg : Text) (End : Option Address)

/-- Projection for the address type rune. -/
def Address.typ : Address → Nat
  | .mk t _ _ => t

/-- Projection for the address argument. -/
def Address.Arg : Address → Text
  | .mk _ a _ => a

/-- Projection for the right side of a comma pair. -/
def Address.End : Address → Option Address
  | .mk _ _ e => e

mutual

/-- Embeds the `Command` node: name, text/regexp argument, chained
subcommand.  The nil-able `*Command` pointer is modelled by the mutual
`OptCommand`, which gives the interpreter a structural recursor. -/
inductive Command where
  | mk (Name : Text) (Arg : Text) (Next : OptCommand)

/-- A possibly-nil chained subcommand (Go `*Command`). -/
inductive OptCommand where
  | none
  | some (c : Command)

end

/-- Projection for the command name. -/
def Command.Name : Command → Text
  | .mk n _ _ => n

/-- Projection for the command argument. -/
def Command.Arg : Command → Text
  | .mk _ a _ => a

/-- Projection for the chained subcommand. -/
def Command.Next : Command → OptCommand
  | .mk _ _ n => n

/-- Model of `strings.Trim(s, "/")`: strip leading and trailing slashes. -/
def trimSlash (t : Text) : Text :=
  ((t.dropWhile (fun b => b = 47)).reverse.dropWhile (fun b => b = 47)).reverse

/-- Parse errors (`fmt.Errorf` in the source); the message text is kept
short. -/
abbrev Err := String

/-- Embeds the `Parser` state. -/
structure Parser where
  scanner : Scanner
  tok : Token
  lit : Text
deriving DecidableEq

/-- Embeds `Parser.Init` (the Go zero value of `Token` is `ADDRESS`). -/
def Parser.Init (src : Text) : Parser :=
  { scanner := Scanner.Init src, tok := Token.ADDRESS, lit := [] }

/-- Embeds `Parser.next`. -/
def Parser.next (p : Parser) : Parser :=
  let r := p.scanner.Scan
  { scanner := r.1, tok := r.2.2.1, lit := r.2.2.2 }

/-- Replaces the `End` field, mirroring the `addr.End = ...` assignments. -/
def Address.withEnd : Address → Option Address → Address
  | .mk t a _, e => .mk t a e

/-- Embeds `Parser.parseAddressSide` (it never returns an error in the
source; an unexpected token leaves the zero address with type 0). -/
def Parser.parseAddressSide (p : Parser) : Parser × Address :=
  let addr :=
    match p.tok with
    | Token.ADDRESS =>
      match p.lit.headD 0 with
      | 35 => Address.mk 35 (p.lit.drop 1) none
      | 48 => Address.mk 48 [] none
      | 46 => Address.mk 46 [] none
      | 36 => Address.mk 36 [] none
      | _ => Address.mk 108 p.lit none
    | Token.TEXT => Address.mk 47 (trimSlash p.lit) none
    | _ => Address.mk 0 [] none
  (p.next, addr)

/-- Embeds `Parser.parseAddress`, including the look-ahead for an address
ending in a bare comma. -/
def Parser.parseAddress (p : Parser) : Except Err (Parser × Address) := do
  let (p, addr) :=
    if p.tok = Token.COMMA then (p, Address.mk 48 [] none)
    else p.parseAddressSide
  if p.tok = Token.COMMA then
    let lookTok := p.scanner.Scan.2.2.1
    let p := p.next
    if lookTok = Token.COMMAND ∨ lookTok = Token.EOF then
      pure (p, addr.withEnd (some (Address.mk 36 [] none)))
    else
      let (p, e) := p.parseAddressSide
      if e.typ = 0 then throw "wrong address"
      else pure (p, addr.withEnd (some e))
  else
    pure (p, addr)

/-- Embeds `Parser.parseCommand`; returns the parsed name and argument (the
chain link is built by the command-list loop). -/
def Parser.parseCommand (p : Parser) : Except Err (Parser × Text × Text) :=
  if p.lit = [100] then pure (p, [100], [])
  else
    let n := p.lit
    let p := p.next
    if p.tok = Token.TEXT then pure (p, n, trimSlash p.lit)
    else throw "invalid command argument"

/-- Functional form of the tail-pointer chain building in
`parseCommandList`: the open chain of x/g/v commands, ended by `tail`. -/
def buildChain : List (Text × Text) → OptCommand → OptCommand
  | [], tail => tail
  | (n, a) :: rest, tail => OptCommand.some (Command.mk n a (buildChain rest tail))

/-- Loop of `Parser.parseCommandList`: parse commands while the token is
COMMAND; x/g/v commands chain onto the pending list, any other command closes
the pending chain into the result list; a pending chain left open at the end
is appended as-is. -/
def parseCommandListF :
    Nat → Parser → List (Text × Text) → List Command → Except Err (Parser × List Command)
  | 0, p, _, list => pure (p, list)
  | fuel + 1, p, pending, list =>
    if p.tok = Token.COMMAND then do
      let (p, n, a) ← p.parseCommand
      if n = [120] ∨ n = [103] ∨ n = [118] then
        parseCommandListF fuel p.next (pending ++ [(n, a)]) list
      else
        match buildChain pending (OptCommand.some (Command.mk n a OptCommand.none)) with
        | OptCommand.some c => parseCommandListF fuel p.next [] (list ++ [c])
        | OptCommand.none => parseCommandListF fuel p.next [] list
    else
      match pending, buildChain pending OptCommand.none with
      | [], _ => pure (p, list)
      | _ :: _, OptCommand.some c => pure (p, list ++ [c])
      | _ :: _, OptCommand.none => pure (p, list)

/-- Embeds `Parser.parseCommandList`. -/
def Parser.parseCommandList (p : Parser) : Except Err (Parser × List Command) :=
  parseCommandListF (p.scanner.src.length + 2) p [] []

/-- Embeds `Parser.Parse`. -/
def Parser.Parse (p : Parser) : Except Err (Option Address × List Command) := do
  let p := p.next
  if p.tok = Token.EOF then
    pure (none, [])
  else do
    let (p, addr) ←
      if p.tok = Token.ADDRESS ∨ p.tok = Token.TEXT ∨ p.tok = Token.COMMA then do
        let (p, a) ← p.parseAddress
        pure (p, some a)
      else
        pure (p, (none : Option Address))
    if p.tok = Token.COMMAND then do
      let (_, cmdList) ← p.parseCommandList
      pure (addr, cmdList)
    else if p.tok ≠ Token.EOF then
      throw "expecting command"
    else
      pure (addr, [])

end sam

theorem decodeRune_ascii (b : Byte) (rest : Text) (hb : b < 128) :
    decodeRune (b :: rest) = (b, 1) := by
  simp only [decodeRune]
  rw [if_pos hb]

theorem scanTextF_eof (n : Nat) (s : sam.Scanner) (esc : Bool) (h : s.ch < 0) :
    sam.scanTextF n s esc = s := by
  cases n with
  | zero => rfl
  | succ m =>
    unfold sam.scanTextF
    rw [if_neg (by omega)]

theorem scanTextF_clean :
    ∀ (n : Nat) (s : sam.Scanner) (esc : Bool),
      (∀ j, s.rdOffset ≤ j → j < s.src.length →
         s.src.getD j 0 < 128 ∧ s.src.getD j 0 ≠ 47 ∧ s.src.getD j 0 ≠ 92) →
      0 ≤ s.ch → s.rdOffset ≤ s.src.length →
      s.src.length + 1 - s.rdOffset ≤ n →
      sam.scanTextF n s esc
        = ⟨s.src, s.src.length, s.src.length, -1⟩ := by
  intro n
  induction n with
  | zero =>
    intro s esc _ _ hle hfuel
    omega
  | succ m ih =>
    intro s esc hclean hch hle hfuel
    unfold sam.scanTextF
    rw [if_pos (by omega)]
    by_cases hlt : s.rdOffset < s.src.length
    · obtain ⟨hb, h47, h92⟩ := hclean s.rdOffset (le_refl _) hlt
      have hnext : s.next = { s with
          offset := s.rdOffset,
          rdOffset := s.rdOffset + 1,
          ch := ((s.src.getD s.rdOffset 0 : Nat) : Int) } := by
        unfold sam.Scanner.next
        rw [if_pos hlt]
        rw [List.drop_eq_getElem_cons hlt]
        rw [← List.getD_eq_getElem s.src 0 hlt]
        rw [decodeRune_ascii _ _ hb]
      rw [hnext]
      have hih := ih { s with
          offset := s.rdOffset,
          rdOffset := s.rdOffset + 1,
          ch := ((s.src.getD s.rdOffset 0 : Nat) : Int) } false
        (by intro j hj1 hj2
            simp only at hj1
            exact hclean j (by omega) hj2)
        (by simp)
        (by simp
            omega)
        (by simp
            omega)
      simp only
      rw [if_neg (fun hc => h47 (by exact_mod_cast hc.1))]
      rw [if_neg (fun hc => h47 (by exact_mod_cast hc))]
      rw [if_neg (fun hc => h92 (by exact_mod_cast hc))]
      exact hih
    · have hrd : s.rdOffset = s.src.length := by omega
      have hnext : s.next = { s with offset := s.src.length, ch := -1 } := by
        unfold sam.Scanner.next
        rw [if_neg hlt]
      rw [hnext]
      simp only
      rw [if_neg (by simp)]
      rw [if_neg (by simp), if_neg (by simp)]
      rw [scanTextF_eof m _ false (by simp)]
      show (⟨s.src, s.src.length, s.rdOffset, -1⟩ : sam.Scanner) = _
      rw [hrd]

/-- C9: parsing a command whose /text/ literal is not terminated by a closing
slash succeeds without error, with the literal consumed to the end of the
input.  First part: for any unterminated ASCII literal w (no slash, no
backslash), the scanText loop — started at the scanner state reached on the
opening slash of an input of the shape a/w — consumes every remaining byte
and stops at end of input with the literal being the whole rest.  Second
part: parsing "a/foo" yields exactly the single command a with argument
"foo" and no error. -/
theorem C9_unterminated_literal_consumed :
    (∀ w : Text, (∀ b ∈ w, b < 128) → 47 ∉ w → 92 ∉ w →
       (sam.Scanner.scanText ⟨97 :: 47 :: w, 1, 2, 47⟩).2 = 47 :: w ∧
       (sam.Scanner.scanText ⟨97 :: 47 :: w, 1, 2, 47⟩).1.ch = -1 ∧
       (sam.Scanner.scanText ⟨97 :: 47 :: w, 1, 2, 47⟩).1.offset
         = (97 :: 47 :: w).length) ∧
    (sam.Parser.Init [97, 47, 102, 111, 111]).Parse
      = Except.ok (none, [sam.Command.mk [97] [102, 111, 111] sam.OptCommand.none]) := by
  constructor
  · intro w hA hs hb
    have hclean : ∀ j, (⟨97 :: 47 :: w, 1, 2, 47⟩ : sam.Scanner).rdOffset ≤ j →
        j < (⟨97 :: 47 :: w, 1, 2, 47⟩ : sam.Scanner).src.length →
        (⟨97 :: 47 :: w, 1, 2, 47⟩ : sam.Scanner).src.getD j 0 < 128 ∧
        (⟨97 :: 47 :: w, 1, 2, 47⟩ : sam.Scanner).src.getD j 0 ≠ 47 ∧
        (⟨97 :: 47 :: w, 1, 2, 47⟩ : sam.Scanner).src.getD j 0 ≠ 92 := by
      intro j hj2 hjlen
      simp only at hj2 hjlen ⊢
      have hget : (97 :: 47 :: w).getD j 0 = w.getD (j - 2) 0 := by
        match j, hj2 with
        | k + 2, _ => simp
      have hlt : j - 2 < w.length := by
        simp at hjlen
        omega
      have hmem : w.getD (j - 2) 0 ∈ w := by
        rw [List.getD_eq_getElem _ _ hlt]
        exact List.getElem_mem _
      rw [hget]
      refine ⟨hA _ hmem, ?_, ?_⟩
      · intro hcon
        rw [hcon] at hmem
        exact hs hmem
      · intro hcon
        rw [hcon] at hmem
        exact hb hmem
    have hrun := scanTextF_clean ((97 :: 47 :: w).length + 2)
      ⟨97 :: 47 :: w, 1, 2, 47⟩ false hclean (by simp) (by simp) (by simp)
    unfold sam.Scanner.scanText
    simp only
    rw [hrun]
    refine ⟨?_, rfl, rfl⟩
    simp only
    have hdrop : (97 :: 47 :: w).drop 1 = 47 :: w := rfl
    rw [hdrop]
    rw [List.take_of_length_le (by simp)]
  · rfl

/-- Witness for C9 at the one-byte unterminated literal "b" (input "a/b"). -/
theorem C9_witness :
    (sam.Scanner.scanText ⟨[97, 47, 98], 1, 2, 47⟩).2 = [47, 98] ∧
    (sam.Scanner.scanText ⟨[97, 47, 98], 1, 2, 47⟩).1.ch = -1 :=
  ⟨(C9_unterminated_literal_consumed.1 [98] (by decide) (by decide) (by decide)).1,
   (C9_unterminated_literal_consumed.1 [98] (by decide) (by decide) (by decide)).2.1⟩

/-- Model of `strconv.Atoi` restricted to the scanner-produced arguments
(digit strings); any other input yields 0 like the ignored-error call sites. -/
def goAtoi (t : Text) : Int :=
  if t ≠ [] ∧ t.all (fun b => 48 ≤ b ∧ b ≤ 57) then
    ((t.foldl (fun acc b => acc * 10 + (b - 48)) 0 : Nat) : Int)
  else 0

/-- Loop of `utf8.RuneCount`; every step consumes at least one byte. -/
def runeCountF : Nat → Text → Nat
  | 0, _ => 0
  | fuel + 1, l =>
    match l with
    | [] => 0
    | _ => 1 + runeCountF fuel (l.drop (decodeRune l).2)

/-- Model of `utf8.RuneCount`. -/
def utf8RuneCount (t : Text) : Nat :=
  runeCountF t.length t

namespace V0

/-- Embeds `File.samAddress` (key-test/key-test.go): resolve one address to
a (start, end) offset pair; rune types are byte values ('0' 48, '$' 36,
'#' 35, 'l' 108, '/' 47). -/
def File.samAddress (file : File) (addr : sam.Address) : Nat × Nat :=
  match addr.typ with
  | 48 => (0, 0)
  | 36 => (file.text.length, file.text.length)
  | 35 =>
    let p := file.point.Goto file.text (goAtoi addr.Arg) file.view.visualTabStop
    (p.off, p.off)
  | 108 =>
    let p := file.point.GotoLine file.text (goAtoi addr.Arg)
    (p.off, lineEnd file.text p.off + 1)
  | 47 =>
    let i := textSearch file.text addr.Arg file.point.off true
    if i ≥ 0 then (i.toNat, i.toNat + utf8RuneCount addr.Arg) else (0, 0)
  | _ => (0, 0)

/-- Embeds the address-resolution fragment of `Med.samExecute` (med.go
lines 562-567): resolve the address into the dot; a right-hand side after a
comma overrides the end; the end is clamped to at least the start. -/
def File.samResolveAddress (file : File) (addr : sam.Address) : Nat × Nat :=
  let r := file.samAddress addr
  let e :=
    match addr.End with
    | some a2 => (file.samAddress a2).2
    | none => r.2
  (r.1, max r.1 e)

end V0

/-- Document of the C5 examples: "abc\ndef\nghi\n". -/
def c5doc : Text :=
  [97, 98, 99, 10, 100, 101, 102, 10, 103, 104, 105, 10]

/-- C5: on the document "abc\ndef\nghi\n" (point at offset 0), address 2
(line 2) resolves to [4,8), the range covering "def\n"; address /def/
starting the search from offset 0 resolves to [4,7); and address 0,$
resolves to the whole document [0,12).  The parse conjuncts tie the textual
addresses "2", "/def/" and "0,$" to the resolved address nodes. -/
theorem C5_address_resolution_examples :
    (V0.NewFile c5doc).samResolveAddress (sam.Address.mk 108 [50] none) = (4, 8) ∧
    ((V0.NewFile c5doc).text.drop 4).take 4 = [100, 101, 102, 10] ∧
    (V0.NewFile c5doc).samResolveAddress (sam.Address.mk 47 [100, 101, 102] none) = (4, 7) ∧
    (V0.NewFile c5doc).samResolveAddress
      (sam.Address.mk 48 [] (some (sam.Address.mk 36 [] none))) = (0, 12) ∧
    (V0.NewFile c5doc).text.length = 12 ∧
    (sam.Parser.Init [50]).Parse = Except.ok (some (sam.Address.mk 108 [50] none), []) ∧
    (sam.Parser.Init [47, 100, 101, 102, 47]).Parse
      = Except.ok (some (sam.Address.mk 47 [100, 101, 102] none), []) ∧
    (sam.Parser.Init [48, 44, 36]).Parse
      = Except.ok (some (sam.Address.mk 48 [] (some (sam.Address.mk 36 [] none))), []) :=
  ⟨rfl, rfl, rfl, rfl, rfl, rfl, rfl, rfl⟩

/-- Loop of the literal-pattern `regexp.FindAllIndex` model; every found
match consumes at least one byte, bounding the iteration count. -/
def findAllLitF : Nat → Text → Text → Nat → List (Nat × Nat)
  | 0, _, _, _ => []
  | fuel + 1, s, pat, base =>
    match bytesIndexAux s pat 0 with
    | none => []
    | some i =>
      (base + i, base + i + pat.length)
        :: findAllLitF fuel (s.drop (i + pat.length)) pat (base + i + pat.length)

/-- Model of `regexp.FindAllIndex(s, -1)` for literal patterns — the only
regexps the claims exercise (the regexp engine is an external library):
successive non-overlapping leftmost occurrences.  Empty patterns are not
modelled. -/
def regexpFindAllIndex (pat s : Text) : List (Nat × Nat) :=
  if pat = [] then [] else findAllLitF (s.length + 1) s pat 0

/-- Model of `regexp.Match` for literal patterns: substring containment
(an empty pattern matches everything, like the empty regexp). -/
def regexpMatch (pat s : Text) : Bool :=
  (bytesIndexAux s pat 0).isSome

namespace V0

/-- Embeds `File.samExecuteEdit` (key-test/key-test.go): execute one of the
editing commands d/a/i/c on the dot, returning the updated file, the new dot
and the reported net byte offset.  Note the source reports `-len(cmd.Arg)`
for d — the argument of d is always empty, so d always reports 0. -/
def File.samExecuteEdit (file : File) (cmd : sam.Command) (dot : Int × Int) :
    File × (Int × Int) × Int :=
  if cmd.Name = [100] then
    let f := (file.Delete dot.1 dot.2).1
    (f, (dot.1, dot.1), -(cmd.Arg.length : Int))
  else if cmd.Name = [97] then
    let f := (file.Goto dot.2).Insert cmd.Arg
    (f, (dot.2, dot.2 + cmd.Arg.length), (cmd.Arg.length : Int))
  else if cmd.Name = [105] then
    let f := (file.Goto dot.1).Insert cmd.Arg
    (f, (dot.1, dot.1 + cmd.Arg.length), (cmd.Arg.length : Int))
  else if cmd.Name = [99] then
    let f1 := file.Goto dot.1
    let r := f1.Delete dot.1 dot.2
    let f := r.1.Insert cmd.Arg
    (f, (dot.1, dot.1 + cmd.Arg.length), (cmd.Arg.length : Int) - (r.2.length : Int))
  else (file, dot, 0)

/-- Embeds `File.samExecuteCommand` together with the match loop of
`File.samExecuteX` (key-test/key-test.go), by structural recursion on the
command chain; `none` mirrors a nil command pointer.  The x loop threads
(file, dot, accumulated net offset) through the matches, shifting each match
coordinate by the running total, exactly as the source loop does.
Literal-pattern regexps never fail to compile, so the error channel of the
source is not reachable here. -/
def File.samExecuteCommand (file : File) (cmd : sam.OptCommand) (dot : Int × Int) :
    File × (Int × Int) × Int :=
  match cmd with
  | sam.OptCommand.none => (file, dot, 0)
  | sam.OptCommand.some (sam.Command.mk n a nx) =>
    if n = [100] ∨ n = [97] ∨ n = [105] ∨ n = [99] then
      file.samExecuteEdit (sam.Command.mk n a nx) dot
    else if n = [120] then
      let p := dot.1
      let ms0 := regexpFindAllIndex a ((file.text.take dot.2.toNat).drop dot.1.toNat)
      ms0.foldl
        (fun acc m =>
          let dot1 := ((p + (m.1 : Int) + acc.2.2 : Int), (p + (m.2 : Int) + acc.2.2 : Int))
          let r2 := acc.1.samExecuteCommand nx dot1
          (r2.1, r2.2.1, acc.2.2 + r2.2.2))
        (file, dot, 0)
    else if n = [103] then
      if regexpMatch a ((file.text.take dot.2.toNat).drop dot.1.toNat) then
        file.samExecuteCommand nx dot
      else (file, dot, 0)
    else if n = [118] then
      if regexpMatch a ((file.text.take dot.2.toNat).drop dot.1.toNat) then
        (file, dot, 0)
      else
        file.samExecuteCommand nx dot
    else (file, dot, 0)

/-- Embeds `File.samExecuteCommandList`: thread the dot through the
top-level command chains. -/
def File.samExecuteCommandList (file : File) (cmdList : List sam.Command)
    (dot : Int × Int) : File × (Int × Int) :=
  cmdList.foldl
    (fun acc cmd =>
      let r := acc.1.samExecuteCommand (sam.OptCommand.some cmd) acc.2
      (r.1, r.2.1))
    (file, dot)

end V0

/-- C4 (code-bug evaluation): executing x/o/d over the document "oo" with
range [0,2).  The d sub-command reports a net offset of -len(cmd.Arg), and
d's argument is always empty, so it reports 0 instead of the number of bytes
it deleted; the second match coordinate is therefore not shifted, the second
delete clamps to an empty range, and the document ends as "o" instead of the
empty document the claimed bookkeeping would produce.  The a sub-command
reports its net insertion correctly: x/o/a/OO/ over "oo" yields "oOOoOO"
with the second insertion point shifted by the first insertion, exactly as
the claim states. -/
theorem C4_x_net_offset_evaluation :
    ((V0.NewFile [111, 111]).samExecuteCommandList
        [sam.Command.mk [120] [111] (sam.OptCommand.some (sam.Command.mk [100] [] sam.OptCommand.none))] (0, 2)).1.text
      = [111] ∧
    ([111] : Text) ≠ [] ∧
    ((V0.NewFile [111, 111]).samExecuteCommandList
        [sam.Command.mk [120] [111] (sam.OptCommand.some (sam.Command.mk [97] [79, 79] sam.OptCommand.none))] (0, 2)).1.text
      = [111, 79, 79, 111, 79, 79] ∧
    (sam.Parser.Init [120, 47, 111, 47, 100]).Parse
      = Except.ok (none,
          [sam.Command.mk [120] [111]
             (sam.OptCommand.some (sam.Command.mk [100] [] sam.OptCommand.none))]) ∧
    (sam.Parser.Init [120, 47, 111, 47, 97, 47, 79, 79, 47]).Parse
      = Except.ok (none,
          [sam.Command.mk [120] [111]
             (sam.OptCommand.some (sam.Command.mk [97] [79, 79] sam.OptCommand.none))]) :=
  ⟨rfl, by decide, rfl, rfl, rfl⟩

/-- Modelled from the spec: `View.Adjust` is called by `File.Search` and
`File.GotoLine` in file.go but its definition is not among the source files
(only callers are).  Per spec section 4.5 (`ensure_visible`) it repositions
the window start so the offset becomes visible; it touches only the view. -/
def View.Adjust (view : View) (text : Text) (off : Nat) : View :=
  if off < view.start then { view with start := lineStart text off } else view

/-- Model of the `\w` byte class of the Go regexp package (ASCII-only:
[0-9A-Za-z_]). -/
def isWordByte (b : Byte) : Bool :=
  (48 ≤ b ∧ b ≤ 57) ∨ (65 ≤ b ∧ b ≤ 90) ∨ (97 ≤ b ∧ b ≤ 122) ∨ b = 95

/-- Model of `wordRe.FindIndex` for the pattern `\w+`: the leftmost maximal
run of word bytes. -/
def wordFindIndex (s : Text) : Option (Nat × Nat) :=
  match s.findIdx? isWordByte with
  | none => none
  | some i => some (i, i + ((s.drop i).takeWhile isWordByte).length)

/-- Model of the `ok` word-rune predicate of `MarkPrevWord`
(`unicode.IsLetter || unicode.IsDigit || r == '_'`): exact on ASCII;
non-ASCII runes above U+00BF are treated as letters, except U+FFFD
(`RuneError`, a symbol, on which the Go loops break).  The dot invariant
does not depend on this choice. -/
def isWordRune (r : Nat) : Bool :=
  (48 ≤ r ∧ r ≤ 57) ∨ (65 ≤ r ∧ r ≤ 90) ∨ (97 ≤ r ∧ r ≤ 122) ∨ r = 95 ∨
    (0xBF < r ∧ r ≠ 0xFFFD)

namespace V1

/-- Embeds the `Dot` selection of file.go (`end` is a Lean keyword, hence
`endOff`). -/
structure Dot where
  start : Nat
  endOff : Nat
deriving DecidableEq

/-- Embeds the `Undo` record of file.go (identical to the V0 record; the
undo integration of this variant is unfinished in the source). -/
structure Undo where
  off : Nat
  text : Text
  isInsert : Bool
deriving DecidableEq

/-- Embeds the dot-based `File` of file.go (first variant): both the legacy
point and the dot live side by side there. -/
structure File where
  modified : Bool
  point : Point
  dot : Dot
  search : Option Text
  view : View
  undos : Option (List Undo)
  redos : List Undo
  mark : Point
  text : Text
  tabStop : Nat
deriving DecidableEq

/-- Embeds `NewFile` of file.go. -/
def NewFile (text : Text) : File :=
  { modified := false, point := ⟨0, 0, 0⟩, dot := ⟨0, 0⟩, search := none,
    view := NewView, undos := some [], redos := [], mark := ⟨0, 0, 0⟩,
    text := text, tabStop := 0 }

/-- Embeds `File.pushUndo` of file.go.  It would push a record and clear the
redo stack, but no mutation primitive of this variant calls it (the source
marks the undo integration "TODO undo"). -/
def File.pushUndo (file : File) (what : Text) (off : Nat) (isInsert : Bool) : File :=
  match file.undos with
  | none => file
  | some us =>
    { file with undos := some ({ off := off, text := what, isInsert := isInsert } :: us),
                redos := [] }

/-- Embeds `File.DotIsEmpty`. -/
def File.DotIsEmpty (file : File) : Bool :=
  file.dot.start = file.dot.endOff

/-- Embeds `File.DotSet`. -/
def File.DotSet (file : File) (pos : Nat) : File :=
  { file with dot := ⟨pos, pos⟩ }

/-- Embeds `File.Search` of file.go: on success the dot is set onto the
match, the view adjusted, and the match text remembered. -/
def File.Search (file : File) (what : Text) (forward : Bool) : File :=
  let off := if forward then file.dot.endOff else file.dot.start - 1
  let i := textSearch file.text what off forward
  if i ≥ 0 then
    let dot : Dot := ⟨i.toNat, i.toNat + what.length⟩
    { file with dot := dot,
                view := file.view.Adjust file.text i.toNat,
                search := some ((file.text.take dot.endOff).drop dot.start) }
  else file

/-- Embeds `File.Delete` of file.go: clamp, remove, collapse the dot to the
start.  No undo record is pushed (see `pushUndo`). -/
def File.Delete (file : File) (start e : Int) : File × Text :=
  let start := (max 0 start).toNat
  let e := (min (file.text.length : Int) e).toNat
  let td := textDelete file.text start e
  ({ file with text := td.1, dot := ⟨start, start⟩, modified := true }, td.2)

/-- Embeds `File.DotDelete`. -/
def File.DotDelete (file : File) : File :=
  (file.Delete (file.dot.start : Int) (file.dot.endOff : Int)).1

/-- Embeds the `InsertOp` enumeration of file.go. -/
inductive InsertOp where
  | After
  | Before
  | Replace
deriving DecidableEq

/-- Embeds `File.DotInsert` of file.go. -/
def File.DotInsert (file : File) (what : Text) (op : InsertOp) (setDot : Bool) : File :=
  if what = [] then file
  else
    let r : File × Nat :=
      match op with
      | InsertOp.After => (file, file.dot.endOff)
      | InsertOp.Before => (file, file.dot.start)
      | InsertOp.Replace => (file.DotDelete, file.dot.start)
    let f := r.1
    let p := r.2
    { f with text := textInsert f.text p what,
             dot := if setDot then ⟨p, p + what.length⟩ else f.dot,
             modified := true }

/-- Embeds `File.Insert` of file.go: splice after the dot, then park the dot
past the insertion.  The undo integration is a TODO in the source, so no
record is pushed and the redo stack is left alone. -/
def File.Insert (file : File) (what : Text) : File :=
  let f := file.DotInsert what InsertOp.After false
  f.DotSet (f.dot.endOff + what.length)

/-- Embeds `File.DotChange`. -/
def File.DotChange (file : File) (what : Text) : File :=
  (file.DotDelete).Insert what

/-- Embeds `File.DotDuplicateBelow`. -/
def File.DotDuplicateBelow (file : File) : File :=
  if file.DotIsEmpty then file
  else
    let de := file.dot.endOff - 1
    let clip := (file.text.take file.dot.endOff).drop file.dot.start
    let f := file.DotSet (min file.text.length (lineEnd file.text de + 1))
    f.DotInsert clip InsertOp.After true

/-- Embeds `File.DotDuplicateAbove`. -/
def File.DotDuplicateAbove (file : File) : File :=
  if file.DotIsEmpty then file
  else
    let clip := (file.text.take file.dot.endOff).drop file.dot.start
    let ls := lineStart file.text file.dot.start
    let ls := if clip.getLastD 0 ≠ 10 then lineStart file.text (ls - 1) else ls
    let f := file.DotSet (lineStart file.text ls)
    f.DotInsert clip InsertOp.After true

/-- Embeds `File.DotOpenBelow` (first variant of file.go, with the keepDot
flag). -/
def File.DotOpenBelow (file : File) (keepDot : Bool) : File :=
  let dot := file.dot
  let f := file.DotSet (lineEnd file.text file.dot.endOff)
  let f := f.Insert [NL]
  if keepDot then { f with dot := dot } else f

/-- Embeds `File.MarkNextWord` (the expand flag is unused in the source). -/
def File.MarkNextWord (file : File) (expand : Bool) : File :=
  let p := min file.text.length file.dot.endOff
  match wordFindIndex (file.text.drop p) with
  | some loc => { file with dot := ⟨loc.1 + p, loc.2 + p⟩ }
  | none => file

/-- First loop of `MarkPrevWord`: scan back over non-word runes; a zero-size
decode (empty prefix) aborts the whole operation like the `s == 0` return. -/
def mpwLoop1 : Nat → Text → Nat → Option Nat
  | 0, _, p => some p
  | fuel + 1, text, p =>
    let d := decodeLastRune (text.take p)
    if d.2 = 0 then none
    else if isWordRune d.1 then some p
    else mpwLoop1 fuel text (p - d.2)

/-- Second loop of `MarkPrevWord`: scan back over word runes. -/
def mpwLoop2 : Nat → Text → Nat → Nat
  | 0, _, p => p
  | fuel + 1, text, p =>
    let d := decodeLastRune (text.take p)
    if isWordRune d.1 then mpwLoop2 fuel text (p - d.2) else p

/-- Embeds `File.MarkPrevWord` (the expand flag is unused in the source). -/
def File.MarkPrevWord (file : File) (expand : Bool) : File :=
  if file.dot.start = 0 then file
  else
    match mpwLoop1 (file.dot.start + 1) file.text file.dot.start with
    | none => file
    | some de =>
      let p := mpwLoop2 (de + 1) file.text de
      { file with dot := ⟨p, de⟩ }

/-- Embeds `File.MarkNextLine`. -/
def File.MarkNextLine (file : File) (expand : Bool) : File :=
  let ls := lineStart file.text file.dot.start
  let le := lineEnd file.text ls + 1
  if expand then
    if le < file.text.length then
      { file with dot := ⟨file.dot.start, lineEnd file.text file.dot.endOff + 1⟩ }
    else file
  else if ls = file.dot.start ∧ le = file.dot.endOff then
    if le < file.text.length then
      { file with dot := ⟨le, lineEnd file.text le + 1⟩ }
    else file
  else
    { file with dot := ⟨ls, le⟩ }

/-- Embeds `File.DeleteChar` of file.go. -/
def File.DeleteChar (file : File) : File :=
  if file.dot.start ≥ file.text.length then file
  else
    let s := (decodeRune (file.text.drop file.dot.start)).2
    (file.Delete (file.dot.start : Int) ((file.dot.start + s : Nat) : Int)).1

/-- Embeds `File.Backspace` of file.go. -/
def File.Backspace (file : File) : File :=
  if file.dot.start = 0 ∧ file.DotIsEmpty then file
  else
    let file :=
      if file.DotIsEmpty then
        let s := (decodeLastRune (file.text.take file.dot.endOff)).2
        { file with dot := ⟨file.dot.start - s, file.dot.endOff⟩ }
      else file
    file.DotDelete

end V1

/-- C6 (code-bug evaluation): in file.go the mutation primitives do not push
any undo record and do not clear the redo stack, although undo tracking is
enabled (`undos` is non-nil) and the in-file documentation of the `Undo`
record promises a record after every insert/delete; the undo integration is
left as "TODO undo".  Inserting "a" into the empty document edits the text
but leaves the undo stack empty and a stale redo record in place; deleting
one byte behaves the same way. -/
theorem C6_mutation_pushes_no_record_in_filego :
    (({ V1.NewFile [] with redos := [⟨0, [120], true⟩] } : V1.File).Insert [97]).text = [97] ∧
    (({ V1.NewFile [] with redos := [⟨0, [120], true⟩] } : V1.File).Insert [97]).undos
      = some [] ∧
    (({ V1.NewFile [] with redos := [⟨0, [120], true⟩] } : V1.File).Insert [97]).redos
      = [⟨0, [120], true⟩] ∧
    (({ V1.NewFile [97, 98] with redos := [⟨0, [120], true⟩] } : V1.File).Delete 0 1).1.text
      = [98] ∧
    (({ V1.NewFile [97, 98] with redos := [⟨0, [120], true⟩] } : V1.File).Delete 0 1).2
      = [97] ∧
    (({ V1.NewFile [97, 98] with redos := [⟨0, [120], true⟩] } : V1.File).Delete 0 1).1.undos
      = some [] ∧
    (({ V1.NewFile [97, 98] with redos := [⟨0, [120], true⟩] } : V1.File).Delete 0 1).1.redos
      = [⟨0, [120], true⟩] := by
  refine ⟨rfl, rfl, rfl, rfl, rfl, rfl, rfl⟩

theorem lineEnd_ge (text : Text) (off : Nat) (h : off ≤ text.length) :
    off ≤ lineEnd text off := by
  unfold lineEnd
  by_cases hge : off ≥ text.length
  · rw [if_pos hge]
    omega
  · rw [if_neg hge]
    cases hidx : bytesIndexAux (text.drop off) [NL] 0 with
    | none =>
      simp only [hidx]
      omega
    | some i =>
      simp only [hidx]
      omega

theorem lineStart_le (text : Text) (off : Nat) : lineStart text off ≤ off := by
  unfold lineStart
  by_cases h0 : off = 0
  · rw [if_pos h0]
    omega
  · rw [if_neg h0]
    cases hidx : bytesLastIndexAux (text.take off) [NL] 0 with
    | none =>
      simp only [hidx]
      omega
    | some i =>
      simp only [hidx]
      obtain ⟨-, hp⟩ := bytesLastIndexAux_some _ _ _ _ hidx
      rw [Nat.sub_zero] at hp
      have hne : (text.take off).drop i ≠ [] := by
        intro hcon
        rw [hcon] at hp
        simp [List.isPrefixOf] at hp
      rw [ne_eq, List.drop_eq_nil_iff, not_le] at hne
      have : (text.take off).length ≤ off := by
        rw [List.length_take]
        omega
      omega

theorem mpwLoop2_le (fuel : Nat) : ∀ (text : Text) (p : Nat), V1.mpwLoop2 fuel text p ≤ p := by
  induction fuel with
  | zero =>
    intro text p
    exact le_refl p
  | succ m ih =>
    intro text p
    unfold V1.mpwLoop2
    by_cases hw : isWordRune (decodeLastRune (List.take p text)).1 = true
    · simp only [hw, if_true]
      exact le_trans (ih text _) (Nat.sub_le _ _)
    · simp only [hw, Bool.false_eq_true, if_false]
      exact le_refl p

theorem wordFindIndex_le (s : Text) (loc : Nat × Nat) (h : wordFindIndex s = some loc) :
    loc.1 ≤ loc.2 := by
  unfold wordFindIndex at h
  cases hidx : s.findIdx? isWordByte with
  | none => rw [hidx] at h; cases h
  | some i =>
    rw [hidx] at h
    cases h
    simp

/-- C7: the dot invariant start <= end holds after every exposed operation:
for every file state with dot.start <= dot.end (and the dot inside the
document), each operation that moves or reshapes the dot — DotSet, Search,
MarkNextWord, MarkPrevWord, MarkNextLine, Backspace, and the Dot* editing
commands (DotDelete, DotChange, DotInsert, DotDuplicateBelow,
DotDuplicateAbove, DotOpenBelow), plus Insert and Delete — leaves
dot.start <= dot.end. -/
theorem C7_dot_invariant_preserved (f : V1.File) (pos : Nat) (what : Text)
    (fwd expand setDot keepDot : Bool) (op : V1.InsertOp) (s e : Int)
    (hd : f.dot.start ≤ f.dot.endOff) (he : f.dot.endOff ≤ f.text.length) :
    (f.DotSet pos).dot.start ≤ (f.DotSet pos).dot.endOff ∧
    (f.Search what fwd).dot.start ≤ (f.Search what fwd).dot.endOff ∧
    (f.MarkNextWord expand).dot.start ≤ (f.MarkNextWord expand).dot.endOff ∧
    (f.MarkPrevWord expand).dot.start ≤ (f.MarkPrevWord expand).dot.endOff ∧
    (f.MarkNextLine expand).dot.start ≤ (f.MarkNextLine expand).dot.endOff ∧
    f.Backspace.dot.start ≤ f.Backspace.dot.endOff ∧
    f.DotDelete.dot.start ≤ f.DotDelete.dot.endOff ∧
    (f.DotChange what).dot.start ≤ (f.DotChange what).dot.endOff ∧
    (f.DotInsert what op setDot).dot.start ≤ (f.DotInsert what op setDot).dot.endOff ∧
    f.DotDuplicateBelow.dot.start ≤ f.DotDuplicateBelow.dot.endOff ∧
    f.DotDuplicateAbove.dot.start ≤ f.DotDuplicateAbove.dot.endOff ∧
    (f.DotOpenBelow keepDot).dot.start ≤ (f.DotOpenBelow keepDot).dot.endOff ∧
    (f.Insert what).dot.start ≤ (f.Insert what).dot.endOff ∧
    (f.Delete s e).1.dot.start ≤ (f.Delete s e).1.dot.endOff := by
  have hDelete : ∀ (g : V1.File) (s2 e2 : Int),
      (g.Delete s2 e2).1.dot.start ≤ (g.Delete s2 e2).1.dot.endOff := by
    intro g s2 e2
    exact le_refl _
  have hDotDelete : ∀ g : V1.File, g.DotDelete.dot.start ≤ g.DotDelete.dot.endOff :=
    fun g => hDelete g _ _
  have hInsert : ∀ (g : V1.File) (w : Text),
      (g.Insert w).dot.start ≤ (g.Insert w).dot.endOff := by
    intro g w
    exact le_refl _
  have hDotInsert : ∀ (g : V1.File) (w : Text) (op2 : V1.InsertOp) (sd : Bool),
      g.dot.start ≤ g.dot.endOff →
      (g.DotInsert w op2 sd).dot.start ≤ (g.DotInsert w op2 sd).dot.endOff := by
    intro g w op2 sd hg
    unfold V1.File.DotInsert
    by_cases hw : w = []
    · rw [if_pos hw]
      exact hg
    rw [if_neg hw]
    cases op2 with
    | After =>
      cases sd with
      | true => simp
      | false => exact hg
    | Before =>
      cases sd with
      | true => simp
      | false => exact hg
    | Replace =>
      cases sd with
      | true => simp
      | false => exact hDotDelete g
  refine ⟨le_refl _, ?_, ?_, ?_, ?_, ?_, hDotDelete f, ?_, hDotInsert f what op setDot hd,
          ?_, ?_, ?_, hInsert f what, hDelete f s e⟩
  · unfold V1.File.Search
    by_cases hi : textSearch f.text what
        (if fwd = true then f.dot.endOff else f.dot.start - 1) fwd ≥ 0
    · rw [if_pos hi]
      simp
    · rw [if_neg hi]
      exact hd
  · unfold V1.File.MarkNextWord
    cases hw : wordFindIndex (f.text.drop (min f.text.length f.dot.endOff)) with
    | none =>
      simp only [hw]
      exact hd
    | some loc =>
      simp only [hw]
      have := wordFindIndex_le _ _ hw
      simp
      omega
  · unfold V1.File.MarkPrevWord
    by_cases h0 : f.dot.start = 0
    · rw [if_pos h0]
      exact hd
    rw [if_neg h0]
    cases hl : V1.mpwLoop1 (f.dot.start + 1) f.text f.dot.start with
    | none =>
      simp only [hl]
      exact hd
    | some de =>
      simp only [hl]
      exact mpwLoop2_le (de + 1) f.text de
  · unfold V1.File.MarkNextLine
    by_cases hex : expand = true
    · rw [if_pos hex]
      by_cases hlt : lineEnd f.text (lineStart f.text f.dot.start) + 1 < f.text.length
      · rw [if_pos hlt]
        have := lineEnd_ge f.text f.dot.endOff he
        simp
        omega
      · rw [if_neg hlt]
        exact hd
    · rw [if_neg hex]
      by_cases heq : lineStart f.text f.dot.start = f.dot.start ∧
          lineEnd f.text (lineStart f.text f.dot.start) + 1 = f.dot.endOff
      · rw [if_pos heq]
        by_cases hlt : lineEnd f.text (lineStart f.text f.dot.start) + 1 < f.text.length
        · rw [if_pos hlt]
          have := lineEnd_ge f.text (lineEnd f.text (lineStart f.text f.dot.start) + 1)
            (by omega)
          simp
          omega
        · rw [if_neg hlt]
          exact hd
      · rw [if_neg heq]
        have h1 := lineStart_le f.text f.dot.start
        have h2 := lineEnd_ge f.text (lineStart f.text f.dot.start) (by omega)
        simp
        omega
  · unfold V1.File.Backspace
    by_cases hc : f.dot.start = 0 ∧ f.DotIsEmpty = true
    · rw [if_pos hc]
      exact hd
    · rw [if_neg hc]
      exact hDotDelete _
  · show ((f.DotDelete).Insert what).dot.start ≤ ((f.DotDelete).Insert what).dot.endOff
    exact hInsert _ _
  · unfold V1.File.DotDuplicateBelow
    by_cases hc : f.DotIsEmpty = true
    · rw [if_pos hc]
      exact hd
    · rw [if_neg hc]
      exact hDotInsert _ _ _ _ (le_refl _)
  · unfold V1.File.DotDuplicateAbove
    by_cases hc : f.DotIsEmpty = true
    · rw [if_pos hc]
      exact hd
    · rw [if_neg hc]
      exact hDotInsert _ _ _ _ (le_refl _)
  · unfold V1.File.DotOpenBelow
    by_cases hk : keepDot = true
    · rw [if_pos hk]
      exact hd
    · rw [if_neg hk]
      exact hInsert _ _

/-- Witness for C7 on a concrete file "ab\ncd" with dot [1,3). -/
theorem C7_witness :
    (({ V1.NewFile [97, 98, 10, 99, 100] with dot := ⟨1, 3⟩ } : V1.File).MarkNextLine
        false).dot.start
      ≤ (({ V1.NewFile [97, 98, 10, 99, 100] with dot := ⟨1, 3⟩ } : V1.File).MarkNextLine
        false).dot.endOff ∧
    (({ V1.NewFile [97, 98, 10, 99, 100] with dot := ⟨1, 3⟩ } : V1.File).Backspace).dot.start
      ≤ (({ V1.NewFile [97, 98, 10, 99, 100] with dot := ⟨1, 3⟩ } : V1.File).Backspace).dot.endOff :=
  ⟨(C7_dot_invariant_preserved { V1.NewFile [97, 98, 10, 99, 100] with dot := ⟨1, 3⟩ }
      0 [] false false false false V1.InsertOp.After 0 0 (by decide) (by decide)).2.2.2.2.1,
   (C7_dot_invariant_preserved { V1.NewFile [97, 98, 10, 99, 100] with dot := ⟨1, 3⟩ }
      0 [] false false false false V1.InsertOp.After 0 0 (by decide) (by decide)).2.2.2.2.2.1⟩
